import Mathlib

/-!
Verification of the fallback-translation core of `fluent-ergonomics`
(`src/lib.rs`): the `FluentErgo` struct with its priority language list,
its bundle store, and the operations `tr`, `tr_`, `add_from_text` and
`add_from_file`.

The external Fluent formatting engine (parsing, bundle resource merging,
pattern rendering) is out of scope of the crate; the core consumes it
through `FluentResource::try_new`, `FluentBundle::add_resource`,
`FluentBundle::get_message` and `FluentBundle::format_pattern`.  We embed
the core's control flow exactly, parameterised over an `Engine` record
holding the engine entry points, and additionally provide a concrete
`ModelEngine` (modelled from the specification of the engine contract) to
evaluate the theorems on concrete inputs.

Rust `String` is modelled as `List Char`; the bundle store
(`HashMap<LanguageIdentifier, FluentBundle>` behind `Arc<RwLock<...>>`) as
an association list, with the `Entry` API's occupied/vacant split made
explicit.  Since every operation of the crate takes the lock for its whole
critical section, the sequential state-passing embedding is faithful.
-/

namespace FluentErgonomics

/-- `unic_langid::LanguageIdentifier`: an opaque identifier with equality. -/
abbrev Lang := String

/-- A Fluent message identifier. -/
abbrev MsgId := String

/-- `fluent_syntax::parser::ParserError`, payload kept opaque. -/
abbrev ParserError := String

/-- `std::io::Error`, payload kept opaque. -/
abbrev IOErr := String

/-- `std::string::FromUtf8Error`, payload kept opaque. -/
abbrev FromUtf8Error := Unit

/-- `fluent::FluentError`: an error reported by the formatting engine when
merging a resource into a bundle or while rendering. -/
inductive FluentErr where
  | Overriding (id : MsgId)
  | ResolverError (description : String)
deriving DecidableEq, Repr

/-- One element of a message pattern: literal text, an argument
placeable, or a reference to another message. -/
inductive PatElem where
  | text (s : List Char)
  | arg (name : String)
  | ref (id : MsgId)
deriving DecidableEq, Repr

/-- A renderable message pattern (`fluent_syntax` AST pattern). -/
abbrev Pattern := List PatElem

/-- A Fluent message: `FluentBundle::get_message` yields one of these and
`tr_` projects out its optional `value` pattern. -/
structure FluentMessage where
  value : Option Pattern
deriving DecidableEq, Repr

/-- A parsed `FluentResource`: the message definitions it declares. -/
abbrev Resource := List (MsgId × FluentMessage)

/-- Named arguments (`FluentArgs`): a mapping from names to values. -/
abbrev Args := List (String × List Char)

/-- `FluentBundle`: locales it was constructed with plus its merged
message entries (insertion order, earlier entries win on lookup, matching
the engine's insert-if-vacant merge). -/
structure FluentBundle where
  locales : List Lang
  entries : List (MsgId × FluentMessage)
deriving DecidableEq, Repr

/-- `FluentBundle::new(&[lang])`: an empty bundle scoped to its locales. -/
def FluentBundle.new (locales : List Lang) : FluentBundle :=
  ⟨locales, []⟩

/-- First-match association-list lookup, the shape of every map access in
the embedding. -/
def alistLookup {β : Type} : List (MsgId × β) → MsgId → Option β
  | [], _ => none
  | (k, v) :: rest, x => if k = x then some v else alistLookup rest x

/-- `FluentBundle::get_message`: find the message entry for an id. -/
def FluentBundle.get_message (b : FluentBundle) (id : MsgId) : Option FluentMessage :=
  alistLookup b.entries id

/-- The entry points the core consumes from the external formatting
engine.  `add_resource` returns the mutated bundle together with the list
of engine errors (the Rust call mutates `&mut self` and returns
`Result<(), Vec<FluentError>>`; an empty error list is `Ok`). -/
structure Engine where
  try_new : List Char → Except (List ParserError) Resource
  add_resource : FluentBundle → Resource → FluentBundle × List FluentErr
  format_pattern : FluentBundle → Pattern → Option Args → List Char × List FluentErr

/-- The crate's unified error type (`enum Error` in `src/lib.rs`). -/
inductive Error where
  | FileEncodingError (e : FromUtf8Error)
  | FluentError (errs : List FluentErr)
  | FluentParserError (errs : List ParserError)
  | IOError (e : IOErr)
  | NoMatchingMessage (id : MsgId)
deriving DecidableEq, Repr

/-- The `FluentErgo` struct: the fixed priority list of languages and the
bundle store mapping languages to bundles. -/
structure FluentErgo where
  languages : List Lang
  bundles : List (Lang × FluentBundle)
deriving DecidableEq, Repr

/-- `FluentErgo::new`: record the priority list; no bundles loaded. -/
def FluentErgo.new (languages : List Lang) : FluentErgo :=
  ⟨languages, []⟩

/-- Bundle-store lookup (`HashMap::get`). -/
def lookupB (bs : List (Lang × FluentBundle)) (l : Lang) : Option FluentBundle :=
  alistLookup bs l

/-- Replace the bundle stored at a present key (`Entry::Occupied`
mutation through `get_mut`). -/
def updateB : List (Lang × FluentBundle) → Lang → FluentBundle → List (Lang × FluentBundle)
  | [], _, _ => []
  | (k, v) :: rest, l, b => if k = l then (k, b) :: rest else (k, v) :: updateB rest l b

/-- U+2068 FIRST STRONG ISOLATE. -/
def fsiChar : Char := '⁨'

/-- U+2069 POP DIRECTIONAL ISOLATE. -/
def pdiChar : Char := '⁩'

/-- The retain step of `tr_`:
`tr_string.retain(|v| v != FSI && v != PDI)`. -/
def stripIsolates (s : List Char) : List Char :=
  s.filter (fun v => v != fsiChar && v != pdiChar)

/-- `FluentErgo::tr_`: look up the message's value pattern in one bundle;
if absent, answer `none` (try the next language); otherwise render it,
print any engine warnings (a side effect dropped here), and strip the
directional-isolate characters from the rendered text. -/
def tr_ (E : Engine) (bundle : FluentBundle) (msgid : MsgId) (args : Option Args) :
    Option (List Char) :=
  let pattern := (bundle.get_message msgid).bind (fun msg => msg.value)
  let res :=
    match pattern with
    | none => none
    | some p => some (E.format_pattern bundle p args).1
  match res with
  | some tr_string => some (stripIsolates tr_string)
  | none => none

/-- `FluentErgo::tr`: iterate the priority list in order, mapping each
language to `bundles.get(lang)` chained into `tr_`, and take the first
`Some`; if the iterator is exhausted, fail with `NoMatchingMessage`. -/
def tr (E : Engine) (s : FluentErgo) (msgid : MsgId) (args : Option Args) :
    Except Error (List Char) :=
  let result : Option (List Char) :=
    s.languages.findSome? (fun lang => (lookupB s.bundles lang).bind
      (fun bundle => tr_ E bundle msgid args))
  match result with
  | some r => .ok r
  | none => .error (.NoMatchingMessage msgid)

/-- `FluentErgo::add_from_text`: parse the text (propagating
`FluentParserError`), then insert through the `Entry` API: on an occupied
entry, `add_resource` mutates the stored bundle in place (so the store
keeps the mutated bundle even when the call errors); on a vacant entry, a
fresh bundle is built, the resource added, and the bundle inserted only
after `add_resource` succeeded.  Returns the call's result together with
the post-call state. -/
def add_from_text (E : Engine) (s : FluentErgo) (lang : Lang) (text : List Char) :
    Except Error Unit × FluentErgo :=
  match E.try_new text with
  | .error errs => (.error (.FluentParserError errs), s)
  | .ok res =>
    match lookupB s.bundles lang with
    | some bundle =>
      let step := E.add_resource bundle res
      let s2 : FluentErgo := { s with bundles := updateB s.bundles lang step.1 }
      if step.2.isEmpty then (.ok (), s2) else (.error (.FluentError step.2), s2)
    | none =>
      let bundle := FluentBundle.new [lang]
      let step := E.add_resource bundle res
      if step.2.isEmpty then
        (.ok (), { s with bundles := s.bundles ++ [(lang, step.1)] })
      else
        (.error (.FluentError step.2), s)

/-- Is `b` a UTF-8 continuation byte (`10xxxxxx`)? -/
def isCont (b : UInt8) : Bool :=
  0x80 ≤ b.toNat && b.toNat < 0xC0

/-- UTF-8 decoding of a byte list, following RFC 3629 as
`String::from_utf8` does: rejects overlong encodings, surrogates, and
code points above U+10FFFF. -/
def utf8Decode : List UInt8 → Option (List Char)
  | [] => some []
  | b :: rest =>
    let n := b.toNat
    if n < 0x80 then
      (utf8Decode rest).map (fun cs => Char.ofNat n :: cs)
    else if n < 0xC2 then
      none
    else if n < 0xE0 then
      match rest with
      | c1 :: rest1 =>
        if isCont c1 then
          (utf8Decode rest1).map
            (fun cs => Char.ofNat ((n - 0xC0) * 64 + (c1.toNat - 0x80)) :: cs)
        else none
      | [] => none
    else if n < 0xF0 then
      match rest with
      | c1 :: c2 :: rest2 =>
        if isCont c1 && isCont c2 &&
            !(n == 0xE0 && c1.toNat < 0xA0) && !(n == 0xED && 0xA0 ≤ c1.toNat) then
          (utf8Decode rest2).map
            (fun cs =>
              Char.ofNat ((n - 0xE0) * 4096 + (c1.toNat - 0x80) * 64 + (c2.toNat - 0x80)) :: cs)
        else none
      | _ => none
    else if n < 0xF5 then
      match rest with
      | c1 :: c2 :: c3 :: rest3 =>
        if isCont c1 && isCont c2 && isCont c3 &&
            !(n == 0xF0 && c1.toNat < 0x90) && !(n == 0xF4 && 0x90 ≤ c1.toNat) then
          (utf8Decode rest3).map
            (fun cs =>
              Char.ofNat ((n - 0xF0) * 262144 + (c1.toNat - 0x80) * 4096 +
                (c2.toNat - 0x80) * 64 + (c3.toNat - 0x80)) :: cs)
        else none
      | _ => none
    else none

/-- `String::from_utf8`, packaged with the crate's error payload. -/
def string_from_utf8 (v : List UInt8) : Except FromUtf8Error (List Char) :=
  match utf8Decode v with
  | some s => .ok s
  | none => .error ()

/-- `FluentErgo::add_from_file`: the whole file content is first read
into memory (the read outcome, including any I/O failure, is the
`contents` input); the bytes are then decoded as UTF-8, failing with
`FileEncodingError`, and on success the call delegates to
`add_from_text`. -/
def add_from_file (E : Engine) (s : FluentErgo) (lang : Lang)
    (contents : Except IOErr (List UInt8)) : Except Error Unit × FluentErgo :=
  match contents with
  | .error e => (.error (.IOError e), s)
  | .ok v =>
    match string_from_utf8 v with
    | .error e => (.error (.FileEncodingError e), s)
    | .ok str => add_from_text E s lang str

/-! ### A concrete model of the external formatting engine

The fluent crate itself is not part of this repository; the definitions
below are modelled from the specification's Formatting Engine contract
(parse a resource blob into message definitions; merge a resource into a
bundle, reporting overriding collisions; render a pattern with argument
interpolation and message references, wrapping interpolations in
directional isolates and reporting non-fatal resolver errors).  They are
used to evaluate the generic theorems on concrete inputs. -/

/-- Split a character list on a separator character. -/
def splitAux (sep : Char) : List Char → List Char → List (List Char)
  | [], acc => [acc.reverse]
  | c :: rest, acc =>
    if c = sep then acc.reverse :: splitAux sep rest []
    else splitAux sep rest (c :: acc)

/-- Split on a separator, keeping empty segments. -/
def splitOnChar (sep : Char) (s : List Char) : List (List Char) :=
  splitAux sep s []

/-- Modelled from the spec: one word of a message value; `$name` is an
argument placeable, `%id` a message reference, anything else literal
text. -/
def wordToElem (w : List Char) : PatElem :=
  match w with
  | '$' :: name => .arg (String.mk name)
  | '%' :: id => .ref (String.mk id)
  | _ => .text w

/-- Modelled from the spec: parse a message value into a pattern, one
element per space-separated word. -/
def parseValue (s : List Char) : Pattern :=
  (splitOnChar ' ' s).map wordToElem

/-- Modelled from the spec: parse one line of a resource blob.  A blank
line yields nothing; `id = value` yields a message definition with a
value pattern; anything else is a syntax error. -/
def parseLine (line : List Char) : Except ParserError (Option (MsgId × FluentMessage)) :=
  if line.all (fun c => c = ' ') then .ok none
  else if line.contains '=' then
    let id := (line.takeWhile (fun c => c ≠ '=')).filter (fun c => c ≠ ' ')
    let value := ((line.dropWhile (fun c => c ≠ '=')).drop 1).dropWhile (fun c => c = ' ')
    if id.isEmpty then .error "expected message identifier"
    else .ok (some (String.mk id, ⟨some (parseValue value)⟩))
  else .error "expected equals sign"

/-- Modelled from the spec: fold the parsed lines into the resource's
message definitions plus the batch of syntax errors. -/
def modelParseAux : List (List Char) → Resource × List ParserError
  | [] => ([], [])
  | line :: rest =>
    let r := modelParseAux rest
    match parseLine line with
    | .error e => (r.1, e :: r.2)
    | .ok none => r
    | .ok (some ent) => (ent :: r.1, r.2)

/-- Modelled from the spec: `FluentResource::try_new` — parse a blob into
a resource, surfacing all syntax errors as a batch. -/
def modelParse (text : List Char) : Except (List ParserError) Resource :=
  let r := modelParseAux (splitOnChar '\n' text)
  if r.2.isEmpty then .ok r.1 else .error r.2

/-- Modelled from the spec: `FluentBundle::add_resource` — append each
definition whose id is not yet taken; a colliding id keeps the existing
entry and reports an `Overriding` error, and the remaining definitions
are still processed. -/
def addResource (b : FluentBundle) : Resource → FluentBundle × List FluentErr
  | [] => (b, [])
  | (id, msg) :: rest =>
    if (alistLookup b.entries id).isSome then
      let r := addResource b rest
      (r.1, .Overriding id :: r.2)
    else
      addResource { b with entries := b.entries ++ [(id, msg)] } rest

/-- Modelled from the spec: render a pattern against a bundle.  Argument
placeables and message references are wrapped in FSI/PDI isolates;
unknown arguments, unknown messages, valueless messages and exhausted
rendering fuel produce non-fatal resolver errors; words are joined by
single spaces.  The fuel bounds the total rendering work, in particular
message-reference nesting. -/
def renderP (b : FluentBundle) (args : Option Args) : Nat → Pattern → List Char × List FluentErr
  | _, [] => ([], [])
  | 0, _ :: _ => ([], [.ResolverError "Too many nested messages"])
  | fuel + 1, e :: rest =>
    let head : List Char × List FluentErr :=
      match e with
      | .text s => (s, [])
      | .arg name =>
        match args.bind (fun a => alistLookup a name) with
        | some v => (fsiChar :: v ++ [pdiChar], [])
        | none =>
          (fsiChar :: name.toList ++ [pdiChar],
            [.ResolverError (String.append "Unknown variable: " name)])
      | .ref id =>
        match (b.get_message id).bind (fun msg => msg.value) with
        | some p =>
          let r := renderP b args fuel p
          (fsiChar :: r.1 ++ [pdiChar], r.2)
        | none => ([], [.ResolverError (String.append "Unknown message: " id)])
    let tail := renderP b args fuel rest
    (head.1 ++ (if rest.isEmpty then [] else ' ' :: tail.1), head.2 ++ tail.2)

/-- Modelled from the spec: the Formatting Engine instance used to
evaluate the theorems on concrete inputs. -/
def ModelEngine : Engine where
  try_new := modelParse
  add_resource := addResource
  format_pattern := fun b p args => renderP b args 1000 p

/-- An engine agreeing with the model engine on every rendered text but
reporting an extra non-fatal warning on every render; used to evaluate
that warnings never affect results. -/
def NoisyEngine : Engine where
  try_new := modelParse
  add_resource := addResource
  format_pattern := fun b p args => ((renderP b args 1000 p).1, [.ResolverError "noise"])

/-! ### Concrete fixtures used to evaluate the theorems -/

/-- An English resource blob mirroring the crate's test fixture. -/
def enText : List Char :=
  ( "preferences = Preferences\nhistory = History\ntime_display = $time during the day\nnested_display = nesting: %time_display").toList

/-- An Esperanto resource blob mirroring the crate's test fixture. -/
def eoText : List Char :=
  ( "history = Historio").toList

/-- A translator with priority `[eo, en]` and both fixtures loaded. -/
def demoState : FluentErgo :=
  (add_from_text ModelEngine
    (add_from_text ModelEngine (FluentErgo.new ["eo", "en"]) "en" enText).2
    "eo" eoText).2

/-- Arguments supplying the `time` placeable. -/
def timeArgs : Args := [("time", ( "13:00").toList)]

/-- The English bundle produced from `enText`, written out. -/
def enBundle : FluentBundle :=
  ⟨["en"],
   [("preferences", ⟨some [.text ( "Preferences").toList]⟩),
    ("history", ⟨some [.text ( "History").toList]⟩),
    ("time_display", ⟨some [.arg "time", .text ( "during").toList, .text ( "the").toList,
      .text ( "day").toList]⟩),
    ("nested_display", ⟨some [.text ( "nesting:").toList, .ref "time_display"]⟩)]⟩

/-- A bundle whose only message has no value pattern (attributes only). -/
def attrOnlyBundle : FluentBundle :=
  ⟨["en"], [("swimming", ⟨none⟩)]⟩

/-- A translator whose first language defines `swimming` without a value
and whose second language has an empty bundle. -/
def valuelessState : FluentErgo :=
  ⟨["en", "eo"], [("en", attrOnlyBundle), ("eo", ⟨["eo"], []⟩)]⟩

/-! ### Association-list and `findSome?` helper lemmas -/

theorem alistLookup_append_of_some {β : Type} {xs ys : List (MsgId × β)} {k : MsgId} {v : β}
    (h : alistLookup xs k = some v) : alistLookup (xs ++ ys) k = some v := by
  induction xs with
  | nil => simp [alistLookup] at h
  | cons p rest ih =>
    obtain ⟨k0, v0⟩ := p
    by_cases hk : k0 = k
    · simp [alistLookup, hk] at h ⊢
      exact h
    · simp [alistLookup, hk] at h ⊢
      exact ih h

theorem alistLookup_append_of_none {β : Type} {xs ys : List (MsgId × β)} {k : MsgId}
    (h : alistLookup xs k = none) : alistLookup (xs ++ ys) k = alistLookup ys k := by
  induction xs with
  | nil => simp [alistLookup]
  | cons p rest ih =>
    obtain ⟨k0, v0⟩ := p
    by_cases hk : k0 = k
    · simp [alistLookup, hk] at h
    · simp [alistLookup, hk] at h ⊢
      exact ih h

theorem alistLookup_none_of_append_none {β : Type} {xs ys : List (MsgId × β)} {k : MsgId}
    (h : alistLookup (xs ++ ys) k = none) : alistLookup xs k = none := by
  cases hx : alistLookup xs k with
  | none => rfl
  | some v => rw [alistLookup_append_of_some hx] at h; exact Option.noConfusion h

theorem alistLookup_isSome_of_mem {β : Type} {xs : List (MsgId × β)} {k : MsgId} {v : β}
    (h : (k, v) ∈ xs) : (alistLookup xs k).isSome := by
  induction xs with
  | nil => simp at h
  | cons p rest ih =>
    obtain ⟨k0, v0⟩ := p
    by_cases hk : k0 = k
    · simp [alistLookup, hk]
    · simp [alistLookup, hk]
      rcases List.mem_cons.mp h with heq | hmem
      · exact absurd (congrArg Prod.fst heq).symm hk
      · exact ih hmem

theorem alistLookup_mem {β : Type} {xs : List (MsgId × β)} {k : MsgId} {v : β}
    (h : alistLookup xs k = some v) : (k, v) ∈ xs := by
  induction xs with
  | nil => simp [alistLookup] at h
  | cons p rest ih =>
    obtain ⟨k0, v0⟩ := p
    by_cases hk : k0 = k
    · simp [alistLookup, hk] at h
      subst hk h
      exact List.mem_cons_self _ _
    · simp [alistLookup, hk] at h
      exact List.mem_cons_of_mem _ (ih h)

theorem lookupB_updateB_self {bs : List (Lang × FluentBundle)} {l : Lang} {b0 : FluentBundle}
    (h : lookupB bs l = some b0) (b : FluentBundle) :
    lookupB (updateB bs l b) l = some b := by
  induction bs with
  | nil => simp [lookupB, alistLookup] at h
  | cons p rest ih =>
    obtain ⟨k0, v0⟩ := p
    by_cases hk : k0 = l
    · simp [lookupB, alistLookup, updateB, hk]
    · simp [lookupB, alistLookup, updateB, hk] at h ⊢
      exact ih h

theorem lookupB_updateB_ne {bs : List (Lang × FluentBundle)} {l l' : Lang} (b : FluentBundle)
    (h : l' ≠ l) : lookupB (updateB bs l b) l' = lookupB bs l' := by
  induction bs with
  | nil => simp [lookupB, updateB]
  | cons p rest ih =>
    obtain ⟨k0, v0⟩ := p
    by_cases hk : k0 = l
    · subst hk
      simp [lookupB, alistLookup, updateB, Ne.symm h]
    · simp only [updateB, if_neg hk]
      by_cases hk' : k0 = l'
      · simp [lookupB, alistLookup, hk']
      · simp [lookupB, alistLookup, hk']
        exact ih

theorem lookupB_append_single_ne {bs : List (Lang × FluentBundle)} {l l' : Lang}
    (b : FluentBundle) (h : l' ≠ l) :
    lookupB (bs ++ [(l, b)]) l' = lookupB bs l' := by
  cases hx : lookupB bs l' with
  | some v => exact alistLookup_append_of_some hx
  | none =>
    rw [lookupB, alistLookup_append_of_none hx]
    simp [alistLookup, Ne.symm h]

theorem lookupB_append_single_self {bs : List (Lang × FluentBundle)} {l : Lang}
    (b : FluentBundle) (h : lookupB bs l = none) :
    lookupB (bs ++ [(l, b)]) l = some b := by
  rw [lookupB, alistLookup_append_of_none h]
  simp [alistLookup]

theorem findSome?_cons_of_some {α β : Type} {f : α → Option β} {a : α} {as : List α} {b : β}
    (h : f a = some b) : (a :: as).findSome? f = some b := by
  simp [List.findSome?, h]

theorem findSome?_cons_of_none {α β : Type} {f : α → Option β} {a : α} {as : List α}
    (h : f a = none) : (a :: as).findSome? f = as.findSome? f := by
  simp [List.findSome?, h]

theorem findSome?_congr {α β : Type} {f g : α → Option β} {xs : List α}
    (h : ∀ x ∈ xs, f x = g x) : xs.findSome? f = xs.findSome? g := by
  induction xs with
  | nil => rfl
  | cons a as ih =>
    have ha := h a (List.mem_cons_self a as)
    cases hfa : f a with
    | some b =>
      rw [findSome?_cons_of_some hfa, findSome?_cons_of_some (ha ▸ hfa)]
    | none =>
      rw [findSome?_cons_of_none hfa, findSome?_cons_of_none (ha ▸ hfa)]
      exact ih (fun x hx => h x (List.mem_cons_of_mem _ hx))

theorem findSome?_eq_none_of_all {α β : Type} {f : α → Option β} {xs : List α}
    (h : ∀ x ∈ xs, f x = none) : xs.findSome? f = none := by
  induction xs with
  | nil => rfl
  | cons a as ih =>
    rw [findSome?_cons_of_none (h a (List.mem_cons_self a as))]
    exact ih (fun x hx => h x (List.mem_cons_of_mem _ hx))

theorem exists_of_findSome?_some {α β : Type} {f : α → Option β} {xs : List α} {b : β}
    (h : xs.findSome? f = some b) : ∃ x ∈ xs, f x = some b := by
  induction xs with
  | nil => simp [List.findSome?] at h
  | cons a as ih =>
    cases hfa : f a with
    | some b0 =>
      rw [findSome?_cons_of_some hfa] at h
      exact ⟨a, List.mem_cons_self a as, hfa.trans h⟩
    | none =>
      rw [findSome?_cons_of_none hfa] at h
      obtain ⟨x, hx, hfx⟩ := ih h
      exact ⟨x, List.mem_cons_of_mem _ hx, hfx⟩

theorem findSome?_append_first {α β : Type} {f : α → Option β} {pre rest : List α} {l : α} {b : β}
    (hpre : ∀ x ∈ pre, f x = none) (hl : f l = some b) :
    (pre ++ l :: rest).findSome? f = some b := by
  induction pre with
  | nil => exact findSome?_cons_of_some hl
  | cons a as ih =>
    rw [List.cons_append, findSome?_cons_of_none (hpre a (List.mem_cons_self a as))]
    exact ih (fun x hx => hpre x (List.mem_cons_of_mem _ hx))

/-! ### Characterisations of `tr_` and `tr` -/

theorem tr_eq_some_of {E : Engine} {b : FluentBundle} {m : MsgId} {msg : FluentMessage}
    {p : Pattern} (a : Option Args)
    (hm : b.get_message m = some msg) (hv : msg.value = some p) :
    tr_ E b m a = some (stripIsolates (E.format_pattern b p a).1) := by
  simp [tr_, hm, hv]

theorem tr_eq_none_of {E : Engine} {b : FluentBundle} {m : MsgId} (a : Option Args)
    (h : (b.get_message m).bind (fun msg => msg.value) = none) :
    tr_ E b m a = none := by
  simp only [tr_, h]

theorem tr_some_inv {E : Engine} {b : FluentBundle} {m : MsgId} {a : Option Args}
    {t : List Char} (h : tr_ E b m a = some t) :
    ∃ msg p, b.get_message m = some msg ∧ msg.value = some p ∧
      t = stripIsolates (E.format_pattern b p a).1 := by
  cases hb : (b.get_message m).bind (fun msg => msg.value) with
  | none => rw [tr_eq_none_of a hb] at h; exact Option.noConfusion h
  | some p =>
    obtain ⟨msg, hm, hv⟩ := Option.bind_eq_some.mp hb
    rw [tr_eq_some_of a hm hv] at h
    exact ⟨msg, p, hm, hv, (Option.some_inj.mp h).symm⟩

theorem tr_eq_ok_of {E : Engine} {s : FluentErgo} {m : MsgId} {a : Option Args}
    {pre rest : List Lang} {l : Lang} {b : FluentBundle} {t : List Char}
    (hl : s.languages = pre ++ l :: rest)
    (hpre : ∀ l' ∈ pre, (lookupB s.bundles l').bind (fun b' => tr_ E b' m a) = none)
    (hb : lookupB s.bundles l = some b) (ht : tr_ E b m a = some t) :
    tr E s m a = .ok t := by
  have : s.languages.findSome?
      (fun lang => (lookupB s.bundles lang).bind (fun bundle => tr_ E bundle m a)) = some t := by
    rw [hl]
    exact findSome?_append_first hpre (by rw [hb]; exact ht)
  simp only [tr, this]

theorem tr_eq_err_of {E : Engine} {s : FluentErgo} {m : MsgId} (a : Option Args)
    (h : ∀ l ∈ s.languages, (lookupB s.bundles l).bind (fun b => tr_ E b m a) = none) :
    tr E s m a = .error (.NoMatchingMessage m) := by
  have : s.languages.findSome?
      (fun lang => (lookupB s.bundles lang).bind (fun bundle => tr_ E bundle m a)) = none :=
    findSome?_eq_none_of_all h
  simp only [tr, this]

theorem tr_ok_inv {E : Engine} {s : FluentErgo} {m : MsgId} {a : Option Args} {t : List Char}
    (h : tr E s m a = .ok t) :
    ∃ l ∈ s.languages, ∃ b, lookupB s.bundles l = some b ∧ tr_ E b m a = some t := by
  cases hf : s.languages.findSome?
      (fun lang => (lookupB s.bundles lang).bind (fun bundle => tr_ E bundle m a)) with
  | none => simp only [tr, hf] at h; exact Except.noConfusion h
  | some r =>
    simp only [tr, hf, Except.ok.injEq] at h
    subst h
    obtain ⟨l, hl, hfl⟩ := exists_of_findSome?_some hf
    obtain ⟨b, hb, htr⟩ := Option.bind_eq_some.mp hfl
    exact ⟨l, hl, b, hb, htr⟩

theorem tr_congr_store {E : Engine} {langs : List Lang}
    {bs bs' : List (Lang × FluentBundle)} (m : MsgId) (a : Option Args)
    (h : ∀ l ∈ langs, lookupB bs' l = lookupB bs l) :
    tr E ⟨langs, bs'⟩ m a = tr E ⟨langs, bs⟩ m a := by
  simp only [tr]
  rw [findSome?_congr (f := fun lang => (lookupB bs' lang).bind (fun bundle => tr_ E bundle m a))
    (g := fun lang => (lookupB bs lang).bind (fun bundle => tr_ E bundle m a))
    (fun x hx => by dsimp only; rw [h x hx])]

/-! ### State evolution of the `add_*` operations -/

theorem add_from_text_languages (E : Engine) (s : FluentErgo) (lang : Lang) (text : List Char) :
    (add_from_text E s lang text).2.languages = s.languages := by
  unfold add_from_text
  cases E.try_new text with
  | error errs => rfl
  | ok res =>
    cases lookupB s.bundles lang with
    | some bundle =>
      by_cases h : (E.add_resource bundle res).2.isEmpty <;> simp [h]
    | none =>
      by_cases h : (E.add_resource (FluentBundle.new [lang]) res).2.isEmpty <;> simp [h]

theorem add_from_text_store_ne (E : Engine) (s : FluentErgo) (lang : Lang) (text : List Char)
    {l' : Lang} (hne : l' ≠ lang) :
    lookupB (add_from_text E s lang text).2.bundles l' = lookupB s.bundles l' := by
  unfold add_from_text
  cases E.try_new text with
  | error errs => rfl
  | ok res =>
    cases hx : lookupB s.bundles lang with
    | some bundle =>
      by_cases h : (E.add_resource bundle res).2.isEmpty <;>
        simp [h, lookupB_updateB_ne _ hne]
    | none =>
      by_cases h : (E.add_resource (FluentBundle.new [lang]) res).2.isEmpty <;>
        simp [h, lookupB_append_single_ne _ hne]

theorem add_from_file_state (E : Engine) (s : FluentErgo) (lang : Lang)
    (contents : Except IOErr (List UInt8)) :
    (add_from_file E s lang contents).2 = s ∨
    ∃ str, add_from_file E s lang contents = add_from_text E s lang str := by
  cases contents with
  | error e => exact Or.inl rfl
  | ok v =>
    cases hsv : string_from_utf8 v with
    | error e => exact Or.inl (by simp [add_from_file, hsv])
    | ok str => exact Or.inr ⟨str, by simp [add_from_file, hsv]⟩

/-! ### Facts about the model engine's resource merge and parser -/

theorem ModelEngine_try_new : ModelEngine.try_new = modelParse := rfl

theorem ModelEngine_add_resource : ModelEngine.add_resource = addResource := rfl

theorem addResource_ok_entries {b : FluentBundle} {r : Resource}
    (h : (addResource b r).2 = []) :
    (addResource b r).1.entries = b.entries ++ r := by
  induction r generalizing b with
  | nil => simp [addResource]
  | cons q rest ih =>
    obtain ⟨id, msg⟩ := q
    cases hx : alistLookup b.entries id with
    | some v => simp [addResource, hx] at h
    | none =>
      simp only [addResource, hx, Option.isSome_none, Bool.false_eq_true, if_false] at h ⊢
      rw [ih h]
      simp

theorem addResource_ok_fresh {b : FluentBundle} {r : Resource}
    (h : (addResource b r).2 = []) :
    ∀ p ∈ r, alistLookup b.entries p.1 = none := by
  induction r generalizing b with
  | nil => intro p hp; simp at hp
  | cons q rest ih =>
    obtain ⟨id, msg⟩ := q
    cases hx : alistLookup b.entries id with
    | some v => simp [addResource, hx] at h
    | none =>
      simp only [addResource, hx, Option.isSome_none, Bool.false_eq_true, if_false] at h
      intro p hp
      rcases List.mem_cons.mp hp with heq | hmem
      · rw [heq]; exact hx
      · exact alistLookup_none_of_append_none (ih h p hmem)

theorem parseLine_ok_some_value {line : List Char} {ent : MsgId × FluentMessage}
    (h : parseLine line = .ok (some ent)) : ∃ pat, ent.2.value = some pat := by
  simp only [parseLine] at h
  split at h
  · exact absurd h (by simp)
  · split at h
    · split at h
      · exact absurd h (by simp)
      · have h2 := Option.some.inj (Except.ok.inj h)
        exact ⟨_, by rw [← h2]⟩
    · exact absurd h (by simp)

theorem modelParseAux_values (lines : List (List Char)) :
    ∀ p ∈ (modelParseAux lines).1, ∃ pat, p.2.value = some pat := by
  induction lines with
  | nil => intro p hp; simp [modelParseAux] at hp
  | cons line rest ih =>
    intro p hp
    simp only [modelParseAux] at hp
    cases hl : parseLine line with
    | error e => rw [hl] at hp; exact ih p hp
    | ok o =>
      cases o with
      | none => rw [hl] at hp; exact ih p hp
      | some ent =>
        rw [hl] at hp
        rcases List.mem_cons.mp hp with heq | hmem
        · rw [heq]; exact parseLine_ok_some_value hl
        · exact ih p hmem

theorem modelParse_values {text : List Char} {res : Resource}
    (h : modelParse text = .ok res) : ∀ p ∈ res, ∃ pat, p.2.value = some pat := by
  simp only [modelParse] at h
  split_ifs at h with hemp
  intro p hp
  exact modelParseAux_values _ p ((Except.ok.inj h) ▸ hp)

/-- The entries held by the bundle for `lang` before a call, empty when no
bundle exists yet. -/
def priorEntries (s : FluentErgo) (lang : Lang) : List (MsgId × FluentMessage) :=
  match lookupB s.bundles lang with
  | some b => b.entries
  | none => []

theorem add_from_text_ok_spec {s s' : FluentErgo} {lang : Lang} {text : List Char}
    {res : Resource} (hp : modelParse text = .ok res)
    (h : add_from_text ModelEngine s lang text = (.ok (), s')) :
    ∃ b', lookupB s'.bundles lang = some b' ∧
      b'.entries = priorEntries s lang ++ res ∧
      (∀ p ∈ res, alistLookup (priorEntries s lang) p.1 = none) ∧
      s'.languages = s.languages := by
  simp only [add_from_text, ModelEngine_try_new, ModelEngine_add_resource, hp] at h
  cases hx : lookupB s.bundles lang with
  | some bundle =>
    simp only [hx] at h
    by_cases he : (addResource bundle res).2.isEmpty
    · rw [if_pos he] at h
      have hs' : s' = { s with bundles := updateB s.bundles lang (addResource bundle res).1 } :=
        ((Prod.mk.injEq _ _ _ _).mp h).2.symm
      have hnil : (addResource bundle res).2 = [] := List.isEmpty_iff.mp he
      have hprior : priorEntries s lang = bundle.entries := by simp [priorEntries, hx]
      refine ⟨(addResource bundle res).1, ?_, ?_, ?_, ?_⟩
      · rw [hs']; exact lookupB_updateB_self hx _
      · rw [hprior]; exact addResource_ok_entries hnil
      · rw [hprior]; exact addResource_ok_fresh hnil
      · rw [hs']
    · rw [if_neg he] at h
      exact absurd ((Prod.mk.injEq _ _ _ _).mp h).1 (by simp)
  | none =>
    simp only [hx] at h
    by_cases he : (addResource (FluentBundle.new [lang]) res).2.isEmpty
    · rw [if_pos he] at h
      have hs' : s' = { s with
          bundles := s.bundles ++ [(lang, (addResource (FluentBundle.new [lang]) res).1)] } :=
        ((Prod.mk.injEq _ _ _ _).mp h).2.symm
      have hnil : (addResource (FluentBundle.new [lang]) res).2 = [] := List.isEmpty_iff.mp he
      have hprior : priorEntries s lang = [] := by simp [priorEntries, hx]
      refine ⟨(addResource (FluentBundle.new [lang]) res).1, ?_, ?_, ?_, ?_⟩
      · rw [hs']; exact lookupB_append_single_self _ hx
      · rw [hprior]
        have := addResource_ok_entries hnil
        simpa [FluentBundle.new] using this
      · rw [hprior]
        intro p hp2
        simp [alistLookup]
      · rw [hs']
    · rw [if_neg he] at h
      exact absurd ((Prod.mk.injEq _ _ _ _).mp h).1 (by simp)

/-! ### The claims -/

/-- **C1.** For every priority list `L = l1 :: rest` and message id `m`
with which the translator was constructed: if `l1`'s bundle exists and
defines `m` (a message entry with a value pattern), `tr` returns `l1`'s
rendered, post-processed text — whatever `rest` is, later languages are
never consulted. -/
theorem C1_first_match_wins (E : Engine) (s : FluentErgo) (l1 : Lang) (rest : List Lang)
    (b : FluentBundle) (msg : FluentMessage) (p : Pattern) (m : MsgId) (a : Option Args)
    (hl : s.languages = l1 :: rest)
    (hb : lookupB s.bundles l1 = some b)
    (hm : b.get_message m = some msg)
    (hv : msg.value = some p) :
    tr E s m a = .ok (stripIsolates (E.format_pattern b p a).1) :=
  tr_eq_ok_of (show s.languages = [] ++ l1 :: rest by simpa using hl) (by simp) hb
    (tr_eq_some_of a hm hv)

/-- Witness for C1: both Esperanto and English define `history`; the
Esperanto (first-priority) rendering is returned. -/
theorem C1_first_match_wins_witness :
    tr ModelEngine demoState "history" none = .ok ( "Historio").toList :=
  C1_first_match_wins ModelEngine demoState "eo" ["en"]
    ⟨["eo"], [("history", ⟨some [.text ( "Historio").toList]⟩)]⟩
    ⟨some [.text ( "Historio").toList]⟩ [.text ( "Historio").toList] "history" none
    (by rfl) (by rfl) (by rfl) (by rfl)

/-- **C2.** If no bundle of any language in the priority list defines the
message id — including when no bundle exists for a language, and
including the empty priority list — `tr` fails with exactly
`NoMatchingMessage` carrying the queried id. -/
theorem C2_no_matching_message (E : Engine) (s : FluentErgo) (m : MsgId) (a : Option Args)
    (h : ∀ l ∈ s.languages, (lookupB s.bundles l).bind (fun b => b.get_message m) = none) :
    tr E s m a = .error (.NoMatchingMessage m) := by
  refine tr_eq_err_of a (fun l hl => ?_)
  cases hx : lookupB s.bundles l with
  | none => rfl
  | some b =>
    have hgm := h l hl
    rw [hx] at hgm
    have hgm2 : b.get_message m = none := hgm
    show tr_ E b m a = none
    exact tr_eq_none_of a (by simp [hgm2])

/-- Witness for C2: `missing` is defined by neither loaded bundle. -/
theorem C2_no_matching_message_witness :
    tr ModelEngine demoState "missing" none = .error (.NoMatchingMessage "missing") :=
  C2_no_matching_message ModelEngine demoState "missing" none (by decide)

/-- **C3 (counterexample).** `add_from_text` for a language with no
bundle yet, failing with an engine error after a successful parse
(duplicate ids in the resource), leaves NO bundle entry for that language
in the store — contrary to the claim that a newly-created empty bundle
remains. -/
theorem C3_counterexample :
    (add_from_text ModelEngine (FluentErgo.new ["en"]) "en" ( "a = 1\na = 2").toList).1 =
      .error (.FluentError [.Overriding "a"]) ∧
    (add_from_text ModelEngine (FluentErgo.new ["en"]) "en" ( "a = 1\na = 2").toList).2.bundles
      = [] :=
  ⟨rfl, rfl⟩

/-- **C3 (amended).** When `add_from_text` is called for a language with
no bundle yet and the resource addition fails with an engine error after
a successful parse, the call fails with that engine error and the bundle
store is left exactly as before the call: the freshly built bundle is
discarded, never inserted (insertion happens only after a successful
`add_resource`). -/
theorem C3_vacant_add_failure (E : Engine) (s : FluentErgo) (lang : Lang) (text : List Char)
    (res : Resource) (b2 : FluentBundle) (errs : List FluentErr)
    (hparse : E.try_new text = .ok res)
    (hvac : lookupB s.bundles lang = none)
    (hadd : E.add_resource (FluentBundle.new [lang]) res = (b2, errs))
    (hne : errs ≠ []) :
    add_from_text E s lang text = (.error (.FluentError errs), s) := by
  have hef : errs.isEmpty = false := by
    cases errs with
    | nil => exact absurd rfl hne
    | cons a l => rfl
  simp only [add_from_text, hparse, hvac, hadd, hef, Bool.false_eq_true, if_false]

/-- Witness for C3 (amended): a duplicate-id resource on a fresh language
fails and leaves the store untouched. -/
theorem C3_vacant_add_failure_witness :
    add_from_text ModelEngine (FluentErgo.new ["en"]) "en" ( "b = 1\nb = 2").toList =
      (.error (.FluentError [.Overriding "b"]), FluentErgo.new ["en"]) :=
  C3_vacant_add_failure ModelEngine (FluentErgo.new ["en"]) "en" ( "b = 1\nb = 2").toList
    [("b", ⟨some [.text [ '1' ]]⟩), ("b", ⟨some [.text [ '2' ]]⟩)]
    ⟨["en"], [("b", ⟨some [.text [ '1' ]]⟩)]⟩ [.Overriding "b"]
    (by rfl) (by rfl) (by rfl) (by decide)

/-- **C4.** Every successful `tr` result contains no U+2068 and no
U+2069: the post-processing strips all directional isolates, whatever
text the engine rendered (interpolated arguments and nested message
references included). -/
theorem C4_no_isolates (E : Engine) (s : FluentErgo) (m : MsgId) (a : Option Args)
    (t : List Char) (h : tr E s m a = .ok t) :
    fsiChar ∉ t ∧ pdiChar ∉ t := by
  obtain ⟨l, hl, b, hb, htr⟩ := tr_ok_inv h
  obtain ⟨msg, p, hm, hv, ht⟩ := tr_some_inv htr
  subst ht
  constructor <;> intro hmem <;>
    · have := List.of_mem_filter hmem
      simp at this

/-- Witness for C4: a message with an interpolated argument renders with
isolate marks, and the returned text carries none of them. -/
theorem C4_no_isolates_witness :
    fsiChar ∉ ( "13:00 during the day").toList ∧
    pdiChar ∉ ( "13:00 during the day").toList :=
  C4_no_isolates ModelEngine demoState "time_display" (some timeArgs)
    ( "13:00 during the day").toList (by rfl)

/-- **C5.** Two sequential successful `add_from_text` calls for the same
language with disjoint message-id sets yield a bundle through which `tr`
resolves every message id of both texts, given that the language is in
the priority list and no earlier language shadows the id. -/
theorem C5_sequential_disjoint_adds_resolve_both
    (s s1 s2 : FluentErgo) (l : Lang) (t1 t2 : List Char) (res1 res2 : Resource)
    (hp1 : modelParse t1 = .ok res1) (hp2 : modelParse t2 = .ok res2)
    (hdisj : ∀ p ∈ res1, ∀ q ∈ res2, p.1 ≠ q.1)
    (h1 : add_from_text ModelEngine s l t1 = (.ok (), s1))
    (h2 : add_from_text ModelEngine s1 l t2 = (.ok (), s2))
    (m : MsgId) (hm : (∃ msg, (m, msg) ∈ res1) ∨ (∃ msg, (m, msg) ∈ res2))
    (a : Option Args) (pre post : List Lang)
    (hlang : s.languages = pre ++ l :: post)
    (hpre : ∀ l' ∈ pre, (lookupB s2.bundles l').bind (fun b => tr_ ModelEngine b m a) = none) :
    ∃ t, tr ModelEngine s2 m a = .ok t := by
  obtain ⟨b1, hb1, he1, hf1, hl1⟩ := add_from_text_ok_spec hp1 h1
  obtain ⟨b2, hb2, he2, hf2, hl2⟩ := add_from_text_ok_spec hp2 h2
  have hprior1 : priorEntries s1 l = b1.entries := by simp [priorEntries, hb1]
  rw [hprior1, he1] at he2 hf2
  have hlook : ∃ msg pat, alistLookup b2.entries m = some msg ∧ msg.value = some pat := by
    rcases hm with ⟨msg0, hmem⟩ | ⟨msg0, hmem⟩
    · have hpnone : alistLookup (priorEntries s l) m = none := hf1 (m, msg0) hmem
      have hsome : (alistLookup res1 m).isSome := alistLookup_isSome_of_mem hmem
      obtain ⟨msg, hmsg⟩ := Option.isSome_iff_exists.mp hsome
      have hall : alistLookup b2.entries m = some msg := by
        rw [he2, List.append_assoc, alistLookup_append_of_none hpnone]
        exact alistLookup_append_of_some hmsg
      obtain ⟨pat, hpat⟩ := modelParse_values hp1 (m, msg) (alistLookup_mem hmsg)
      exact ⟨msg, pat, hall, hpat⟩
    · have hpnone : alistLookup (priorEntries s l ++ res1) m = none := hf2 (m, msg0) hmem
      have hsome : (alistLookup res2 m).isSome := alistLookup_isSome_of_mem hmem
      obtain ⟨msg, hmsg⟩ := Option.isSome_iff_exists.mp hsome
      have hall : alistLookup b2.entries m = some msg := by
        rw [he2, alistLookup_append_of_none hpnone]
        exact hmsg
      obtain ⟨pat, hpat⟩ := modelParse_values hp2 (m, msg) (alistLookup_mem hmsg)
      exact ⟨msg, pat, hall, hpat⟩
  obtain ⟨msg, pat, hmsg, hpat⟩ := hlook
  have hgoal : s2.languages = pre ++ l :: post := by rw [hl2, hl1, hlang]
  exact ⟨stripIsolates (ModelEngine.format_pattern b2 pat a).1,
    tr_eq_ok_of hgoal hpre hb2 (tr_eq_some_of a hmsg hpat)⟩

/-- Witness for C5: loading `preferences` then `history` for English
leaves both resolvable; `history`, from the second text, resolves. -/
theorem C5_sequential_disjoint_adds_resolve_both_witness :
    ∃ t, tr ModelEngine
      (add_from_text ModelEngine
        (add_from_text ModelEngine (FluentErgo.new ["en"]) "en"
          ( "preferences = Preferences").toList).2
        "en" ( "history = History").toList).2 "history" none = .ok t :=
  C5_sequential_disjoint_adds_resolve_both
    (FluentErgo.new ["en"])
    (add_from_text ModelEngine (FluentErgo.new ["en"]) "en"
      ( "preferences = Preferences").toList).2
    (add_from_text ModelEngine
      (add_from_text ModelEngine (FluentErgo.new ["en"]) "en"
        ( "preferences = Preferences").toList).2
      "en" ( "history = History").toList).2
    "en" ( "preferences = Preferences").toList ( "history = History").toList
    [("preferences", ⟨some [.text ( "Preferences").toList]⟩)]
    [("history", ⟨some [.text ( "History").toList]⟩)]
    (by rfl) (by rfl) (by decide) (by rfl) (by rfl)
    "history" (Or.inr ⟨⟨some [.text ( "History").toList]⟩, by decide⟩) none
    [] [] (by rfl) (by decide)

/-- **C6.** Adding a resource (from text or from a byte source,
successfully or not) for a language absent from the priority list leaves
the result of every `tr` call unchanged: the bundle may be stored but is
never consulted. -/
theorem C6_foreign_language_add_invisible (E : Engine) (s : FluentErgo) (l : Lang)
    (hl : l ∉ s.languages) (text : List Char) (contents : Except IOErr (List UInt8))
    (m : MsgId) (a : Option Args) :
    tr E (add_from_text E s l text).2 m a = tr E s m a ∧
    tr E (add_from_file E s l contents).2 m a = tr E s m a := by
  have key : ∀ t : List Char, tr E (add_from_text E s l t).2 m a = tr E s m a := by
    intro t
    have hlang := add_from_text_languages E s l t
    have hstore : ∀ l' ∈ s.languages,
        lookupB (add_from_text E s l t).2.bundles l' = lookupB s.bundles l' :=
      fun l' hl' => add_from_text_store_ne E s l t (fun he => hl (he ▸ hl'))
    calc tr E (add_from_text E s l t).2 m a
        = tr E ⟨s.languages, (add_from_text E s l t).2.bundles⟩ m a := by rw [← hlang]
      _ = tr E ⟨s.languages, s.bundles⟩ m a := tr_congr_store m a hstore
      _ = tr E s m a := rfl
  refine ⟨key text, ?_⟩
  rcases add_from_file_state E s l contents with h | ⟨str, h⟩
  · rw [h]
  · rw [h]
    exact key str

/-- Witness for C6: adding German (not in the `[eo, en]` priority list)
from text and from bytes changes no `tr` outcome. -/
theorem C6_foreign_language_add_invisible_witness :
    tr ModelEngine
        (add_from_text ModelEngine demoState "de" ( "history = Geschichte").toList).2
        "history" none = tr ModelEngine demoState "history" none ∧
    tr ModelEngine (add_from_file ModelEngine demoState "de" (.ok [0x68])).2
        "history" none = tr ModelEngine demoState "history" none :=
  C6_foreign_language_add_invisible ModelEngine demoState "de" (by decide)
    ( "history = Geschichte").toList (.ok [0x68]) "history" none

/-- **C7.** When the parser rejects the text, `add_from_text` fails with
the parser's syntax errors and the bundle store is exactly as before: no
message id from the rejected text becomes resolvable. -/
theorem C7_parse_error_whole_resource_rejected (E : Engine) (s : FluentErgo) (lang : Lang)
    (text : List Char) (errs : List ParserError) (m : MsgId) (a : Option Args)
    (hparse : E.try_new text = .error errs) :
    add_from_text E s lang text = (.error (.FluentParserError errs), s) ∧
    tr E (add_from_text E s lang text).2 m a = tr E s m a := by
  have h1 : add_from_text E s lang text = (.error (.FluentParserError errs), s) := by
    simp only [add_from_text, hparse]
  exact ⟨h1, by rw [h1]⟩

/-- Witness for C7: a blob whose second line is malformed is rejected
whole; `good`, declared on its first line, stays unresolvable. -/
theorem C7_parse_error_whole_resource_rejected_witness :
    add_from_text ModelEngine (FluentErgo.new ["en"]) "en"
        ( "good = Good\nbad line").toList =
      (.error (.FluentParserError ["expected equals sign"]), FluentErgo.new ["en"]) ∧
    tr ModelEngine
        (add_from_text ModelEngine (FluentErgo.new ["en"]) "en"
          ( "good = Good\nbad line").toList).2 "good" none =
      tr ModelEngine (FluentErgo.new ["en"]) "good" none :=
  C7_parse_error_whole_resource_rejected ModelEngine (FluentErgo.new ["en"]) "en"
    ( "good = Good\nbad line").toList ["expected equals sign"] "good" none (by rfl)

/-- **C8.** `add_from_file` reads the whole byte content first; invalid
UTF-8 fails with `FileEncodingError` leaving the store untouched, and
valid UTF-8 makes the call equal to `add_from_text` on the decoded
string. -/
theorem C8_add_from_file_delegates (E : Engine) (s : FluentErgo) (lang : Lang)
    (v : List UInt8) :
    (∀ e, string_from_utf8 v = .error e →
      add_from_file E s lang (.ok v) = (.error (.FileEncodingError e), s)) ∧
    (∀ str, string_from_utf8 v = .ok str →
      add_from_file E s lang (.ok v) = add_from_text E s lang str) := by
  constructor
  · intro e he
    simp only [add_from_file, he]
  · intro str hs
    simp only [add_from_file, hs]

/-- Witness for C8: the invalid byte `0xFF` fails with the encoding
error and no state change; the bytes of `hi` decode and delegate. -/
theorem C8_add_from_file_delegates_witness :
    add_from_file ModelEngine demoState "en" (.ok [0xFF]) =
      (.error (.FileEncodingError ()), demoState) ∧
    add_from_file ModelEngine demoState "en" (.ok [0x68, 0x69]) =
      add_from_text ModelEngine demoState "en" ( "hi").toList :=
  ⟨(C8_add_from_file_delegates ModelEngine demoState "en" [0xFF]).1 () (by rfl),
   (C8_add_from_file_delegates ModelEngine demoState "en" [0x68, 0x69]).2
     ( "hi").toList (by rfl)⟩

/-- **C9.** When the selected bundle defines the message id with a value,
non-fatal rendering warnings neither fail the call nor change the
returned text: the result is the rendered, post-processed string,
depending only on the rendered text, and any engine differing only in
its warnings yields the same result. -/
theorem C9_warnings_never_escalate (E E' : Engine) (b : FluentBundle) (m : MsgId)
    (a : Option Args) (msg : FluentMessage) (p : Pattern)
    (hm : b.get_message m = some msg) (hv : msg.value = some p)
    (hfmt : (E'.format_pattern b p a).1 = (E.format_pattern b p a).1) :
    tr_ E b m a = some (stripIsolates (E.format_pattern b p a).1) ∧
    tr_ E' b m a = tr_ E b m a := by
  refine ⟨tr_eq_some_of a hm hv, ?_⟩
  rw [tr_eq_some_of (E := E') a hm hv, tr_eq_some_of (E := E) a hm hv, hfmt]

/-- Witness for C9: rendering `time_display` without its argument
produces a resolver warning, yet the call succeeds; the noisy engine,
which warns on every render, returns the same text. -/
theorem C9_warnings_never_escalate_witness :
    tr_ ModelEngine enBundle "time_display" none =
      some ( "time during the day").toList ∧
    tr_ NoisyEngine enBundle "time_display" none =
      tr_ ModelEngine enBundle "time_display" none :=
  C9_warnings_never_escalate ModelEngine NoisyEngine enBundle "time_display" none
    ⟨some [.arg "time", .text ( "during").toList, .text ( "the").toList,
      .text ( "day").toList]⟩
    [.arg "time", .text ( "during").toList, .text ( "the").toList, .text ( "day").toList]
    (by rfl) (by rfl) (by rfl)

/-- **C10.** If the first language's bundle holds the message id with no
value pattern, `tr` treats it like an absent id: it falls through to the
remaining languages, and yields `NoMatchingMessage` when no later bundle
defines the id with a value. -/
theorem C10_valueless_message_falls_through (E : Engine) (s : FluentErgo) (l1 : Lang)
    (rest : List Lang) (b : FluentBundle) (msg : FluentMessage) (m : MsgId) (a : Option Args)
    (hl : s.languages = l1 :: rest)
    (hb : lookupB s.bundles l1 = some b)
    (hm : b.get_message m = some msg)
    (hv : msg.value = none) :
    tr E s m a = tr E ⟨rest, s.bundles⟩ m a ∧
    ((∀ l ∈ rest, (lookupB s.bundles l).bind
        (fun b2 => (b2.get_message m).bind (fun mg => mg.value)) = none) →
      tr E s m a = .error (.NoMatchingMessage m)) := by
  have hnone : tr_ E b m a = none := tr_eq_none_of a (by rw [hm]; simpa using hv)
  have hfs : (fun lang => (lookupB s.bundles lang).bind (fun bundle => tr_ E bundle m a)) l1
      = none := by
    show (lookupB s.bundles l1).bind (fun bundle => tr_ E bundle m a) = none
    rw [hb]; simpa using hnone
  have h1 : tr E s m a = tr E ⟨rest, s.bundles⟩ m a := by
    simp only [tr, hl]
    rw [findSome?_cons_of_none
      (f := fun lang => (lookupB s.bundles lang).bind (fun bundle => tr_ E bundle m a)) hfs]
  refine ⟨h1, fun hrest => ?_⟩
  rw [h1]
  refine tr_eq_err_of a (fun l hlmem => ?_)
  cases hx : lookupB s.bundles l with
  | none => rfl
  | some b2 =>
    have hb2 := hrest l hlmem
    rw [hx] at hb2
    show tr_ E b2 m a = none
    exact tr_eq_none_of a (by simpa using hb2)

/-- Witness for C10: `swimming` exists valueless in the first bundle and
nowhere else: `tr` equals the tail-list search and ends in
`NoMatchingMessage`. -/
theorem C10_valueless_message_falls_through_witness :
    tr ModelEngine valuelessState "swimming" none =
      tr ModelEngine ⟨["eo"], valuelessState.bundles⟩ "swimming" none ∧
    tr ModelEngine valuelessState "swimming" none =
      .error (.NoMatchingMessage "swimming") :=
  ⟨(C10_valueless_message_falls_through ModelEngine valuelessState "en" ["eo"]
      attrOnlyBundle ⟨none⟩ "swimming" none (by rfl) (by rfl) (by rfl) (by rfl)).1,
   (C10_valueless_message_falls_through ModelEngine valuelessState "en" ["eo"]
      attrOnlyBundle ⟨none⟩ "swimming" none (by rfl) (by rfl) (by rfl) (by rfl)).2
     (by decide)⟩

end FluentErgonomics
